import Mathlib

/-!
Verification of the extreme-value statistics module `mhkit/loads/extreme.py`.

The Python module is shallowly embedded over exact rationals (`ℚ`): numpy
arrays become `List ℚ`, scalar floats become `ℚ`, a float value that may be
NaN becomes `Option ℚ` (with `none` standing for NaN), and a computation that
may raise a Python exception returns `Option`/a dedicated outcome type.
External numeric primitives that the module merely calls (the scipy
maximum-likelihood fitters, the probability-plot correlation) are abstracted
as function parameters, exactly as the module's own specification treats them
(consumed capabilities, interface-only).
-/

namespace MhkitExtreme

/-! ## ReturnValueCalculator: `return_year_value` (extreme.py lines 858-883)

The body is
`p = 1 / (return_year * 365.25 * 24 / short_term_period_hr); return ppf(1 - p)`.
`365.25` is the exact rational `1461/4` (exactly representable in binary
floating point as well). -/

def return_year_value (ppf : ℚ → ℚ) (returnYear shortTermPeriodHr : ℚ) : ℚ :=
  let p := 1 / (returnYear * (1461 / 4) * 24 / shortTermPeriodHr)
  ppf (1 - p)

/-! ## Weibull tail fit: the empirical CDF (extreme.py lines 163-167)

The code sorts the sample, sets `npeaks = len(x)` and fills
`F[i] = i / (npeaks + 1.0)` for `i in range(npeaks)`; the empirical
probability `F[i]` is paired with the i-th smallest peak (0-indexed) of the
sorted sample. -/

def wtfSortedPeaks (x : List ℚ) : List ℚ :=
  List.insertionSort (· ≤ ·) x

def wtfEmpiricalCdf (x : List ℚ) : List ℚ :=
  (List.range x.length).map (fun (i : ℕ) => (i : ℚ) / ((x.length : ℚ) + 1))

/-! ## `short_term_extreme` dispatch (extreme.py lines 490-545)

The method-name dictionaries hold five keys.  On a recognized key the
function assigns the local variable `ste` and returns it; on an unknown key
it executes `print("Passed `method` not found.")` and then `return ste`.
Because `ste` is assigned in the `if`/`elif` branches it is a local variable
of the function for the whole body (Python scoping), so on the unknown-method
path `return ste` reads an unassigned local and raises `UnboundLocalError`
(it does not resolve to the module-level function named `ste`, and it does
not return `None`). -/

inductive SteChoice where
  | peaksWeibull : SteChoice
  | peaksWeibullTailFit : SteChoice
  | peaksOverThreshold : SteChoice
  | blockMaximaGev : SteChoice
  | blockMaximaGumbel : SteChoice
deriving DecidableEq

/-- A Python call outcome: a returned value, or a raised exception
(identified by its exception-class name). -/
inductive PyOutcome (α : Type) where
  | ret : α → PyOutcome α
  | exn : String → PyOutcome α
deriving DecidableEq

def peaksMethodKeys : List String :=
  ["peaks_weibull", "peaks_weibull_tail_fit", "peaks_over_threshold"]

def blockMaximaMethodKeys : List String :=
  ["block_maxima_gev", "block_maxima_gumbel"]

def steChoiceOfMethod (method : String) : SteChoice :=
  if method = "peaks_weibull" then .peaksWeibull
  else if method = "peaks_weibull_tail_fit" then .peaksWeibullTailFit
  else if method = "peaks_over_threshold" then .peaksOverThreshold
  else if method = "block_maxima_gev" then .blockMaximaGev
  else .blockMaximaGumbel

/-- The dispatch skeleton of `short_term_extreme`: which estimator is selected
and what happens on an unknown method name.  The first component is the list
of lines printed to stdout; `PyOutcome` records whether the call returns
(with the selected estimator; `some choice` stands for a fitted-distribution
result produced by that estimator) or raises.  On the unknown-method path
the code prints the message and then `return ste` raises `UnboundLocalError`
because the local `ste` was never assigned. -/
def short_term_extreme (method : String) : List String × PyOutcome (Option SteChoice) :=
  if method ∈ peaksMethodKeys then
    ([], .ret (some (steChoiceOfMethod method)))
  else if method ∈ blockMaximaMethodKeys then
    ([], .ret (some (steChoiceOfMethod method)))
  else
    (["Passed `method` not found."], .exn "UnboundLocalError")

/-! ## `ste_peaks` (extreme.py lines 356-394)

`_ShortTermExtreme._cdf` computes `peaks_cdf = np.array(self.peaks.cdf(x))`,
replaces NaN entries by `0.0`, squeezes a length-1 array to a scalar, and
returns `peaks_cdf ** self.npeaks`.  A parent peaks CDF is embedded as
`ℚ → Option ℚ` (`none` = NaN, as produced below the threshold of a
peaks-over-threshold distribution).  The float exponent `npeaks` is embedded
at natural-number exponents (`Monoid.npow` on `ℚ`); the refuted clause of the
claim is the `n_peaks = 1` instance, which is a natural number. -/

def steCdfVec (parentCdf : ℚ → Option ℚ) (npeaks : ℕ) (xs : List ℚ) : List ℚ :=
  let peaksCdf := xs.map parentCdf
  let cleaned := peaksCdf.map (fun v => v.getD 0)
  cleaned.map (fun c => c ^ npeaks)

def steCdf (parentCdf : ℚ → Option ℚ) (npeaks : ℕ) (x : ℚ) : ℚ :=
  (steCdfVec parentCdf npeaks [x]).headD 0

/-! ## `peaks_distribution_peaks_over_threshold` (extreme.py lines 286-353)

The function sorts the sample, takes the strict exceedances over the
threshold, fits a generalized Pareto with location fixed at 0 by maximum
likelihood (scipy primitive, abstracted as `fitGPD`), and returns a derived
distribution whose `_cdf` is NaN below the threshold and
`1 - (npot/npeaks) * (1 - pot.cdf(x - threshold))` at or above it.
The default threshold is `np.mean(x) + 1.4 * np.std(x)`; since the square
root of the population variance generally leaves `ℚ`, the standard deviation
`s` is passed explicitly (theorems about the default path constrain it by
`0 ≤ s` and `s^2 = varPop x`). -/

def mean (x : List ℚ) : ℚ := x.sum / (x.length : ℚ)

def varPop (x : List ℚ) : ℚ :=
  ((x.map (fun v => (v - mean x) ^ 2)).sum) / (x.length : ℚ)

def potExceedances (x : List ℚ) (u : ℚ) : List ℚ :=
  ((wtfSortedPeaks x).filter (fun v => decide (u < v))).map (fun v => v - u)

def potPeaksCdf (gpdCdf : ℚ → ℚ) (u : ℚ) (npot npeaks : ℕ) (y : ℚ) : Option ℚ :=
  if y < u then none
  else some (1 - ((npot : ℚ) / (npeaks : ℚ)) * (1 - gpdCdf (y - u)))

def peaks_distribution_peaks_over_threshold (fitGPD : List ℚ → ℚ → ℚ)
    (x : List ℚ) (threshold : Option ℚ) (s : ℚ) : ℚ → Option ℚ :=
  let u := match threshold with
    | none => mean x + 7 / 5 * s
    | some t => t
  let xs := wtfSortedPeaks x
  let pot := (xs.filter (fun v => decide (u < v))).map (fun v => v - u)
  potPeaksCdf (fitGPD pot) u pot.length xs.length

/-! ## `full_seastate_long_term_extreme` (extreme.py lines 548-587)

`_LongTermExtreme` normalizes the weights by their sum on construction and
its `_cdf` accumulates `f += w_i * ste_i.cdf(x)` over `zip(weights, ste)`. -/

def longTermCdf (stes : List (ℚ → ℚ)) (weights : List ℚ) (x : ℚ) : ℚ :=
  let normalized := weights.map (fun w => w / weights.sum)
  (normalized.zip stes).foldl (fun f p => f + p.1 * p.2 x) 0

/-! ## `_peaks_over_threshold` independence merge (extreme.py lines 7-39)

After computing the Hazen-percentile threshold, the function runs
`global_peaks` on `peaks - threshold_unit` over integer positions, giving
candidate storm-peak indices `idx_storm_peaks` with values
`storm_peaks = peaks[idx_storm_peaks] - threshold_unit` (by construction of
`global_peaks`, which returns `data[peak_inds]`).  The merge loop keeps the
first candidate and then, for each later candidate index `idx`:
if `idx - idx_independent_storm_peaks[-1] > window` it appends
`peaks[idx] - threshold_unit`; `elif peaks[idx] > independent_storm_peaks[-1]`
it overwrites the last kept index and value with `idx` and
`peaks[idx] - threshold_unit`.  Note the `elif` compares the RAW peak value
`peaks[idx]` against the stored EXCEEDANCE `independent_storm_peaks[-1]`
(which is `peaks[last] - threshold_unit`), not exceedance against
exceedance.  The merge loop is embedded with the threshold, window and
candidate index list as parameters. -/

def mergeStormPeaks (peaks : List ℚ) (thresholdUnit window : ℚ) :
    List ℕ → List (ℕ × ℚ)
  | [] => []
  | i0 :: rest =>
    rest.foldl
      (fun (acc : List (ℕ × ℚ)) (idx : ℕ) =>
        match acc.getLast? with
        | none => acc
        | some last =>
          if ((idx : ℚ) - (last.1 : ℚ)) > window then
            acc ++ [(idx, peaks.getD idx 0 - thresholdUnit)]
          else if peaks.getD idx 0 > last.2 then
            acc.dropLast ++ [(idx, peaks.getD idx 0 - thresholdUnit)]
          else acc)
      [(i0, peaks.getD i0 0 - thresholdUnit)]

def independentStormPeaks (peaks : List ℚ) (thresholdUnit window : ℚ)
    (idxStormPeaks : List ℕ) : List ℚ :=
  (mergeStormPeaks peaks thresholdUnit window idxStormPeaks).map Prod.snd

/-! ## `block_maxima` (extreme.py lines 397-427)

`nblock = int(t[-1] / t_st)` truncates toward zero, which for a nonnegative
quotient is the floor (for a quotient in (-1, 0) it is 0, and for a quotient
at or below -1 `np.zeros(nblock)` raises on the negative dimension, embedded
as `none`).  `t[-1]` on an empty array raises (`none`), and indexing `x` by a
boolean mask over `t` of a different length raises (the length guard).  Block
`iblock` collects `x[(t >= iblock*t_st) & (t < (iblock+1)*t_st)]` and takes
`np.max`, which raises on an empty block (`none`).  The embedding is used, as
the claim is, at `t_st > 0`. -/

def npMax : List ℚ → Option ℚ
  | [] => none
  | a :: l => some (l.foldl max a)

def blockPairs (txs : List (ℚ × ℚ)) (tst : ℚ) (i : ℕ) : List (ℚ × ℚ) :=
  txs.filter (fun p => decide ((i : ℚ) * tst ≤ p.1) && decide (p.1 < ((i : ℚ) + 1) * tst))

def blockOf (txs : List (ℚ × ℚ)) (tst : ℚ) (i : ℕ) : List ℚ :=
  (blockPairs txs tst i).map Prod.snd

def collectBlocks (txs : List (ℚ × ℚ)) (tst : ℚ) : ℕ → Option (List ℚ)
  | 0 => some []
  | n + 1 =>
    match collectBlocks txs tst n, npMax (blockOf txs tst n) with
    | some l, some m => some (l ++ [m])
    | _, _ => none

def block_maxima (t x : List ℚ) (tst : ℚ) : Option (List ℚ) :=
  if t.length = x.length then
    match t.getLast? with
    | none => none
    | some tl =>
      if tl / tst ≤ -1 then none
      else collectBlocks (t.zip x) tst (⌊tl / tst⌋.toNat)
  else none

/-! ## `automatic_hs_threshold` (extreme.py lines 192-283)

The refinement search is embedded as a state machine.  Per pass:
`thresholds = np.arange(range_min, range_max, range_step)` (length
`⌈(stop-start)/step⌉`, values `start + i*step`); the inner scan evaluates
each threshold in order — `np.percentile(peaks, 100*threshold)` inside
`_peaks_over_threshold` raises (outcome `err`) for a threshold outside
[0, 1]; if the rate of independent exceedances per year is below 2 the scan
`break`s, keeping the correlations collected so far; otherwise the GPD fit
and the probability-plot correlation are appended.  The rate and the
correlation are deterministic functions of the threshold for fixed `peaks`
and `sampling_rate`, abstracted as the `HsOracle` (scipy fitting and
`probplot` are external primitives).  `np.argmax` of an empty correlation
list raises (`err`); otherwise it returns the first index of the maximum.
`minimal_change` compares `|best - thresholds[max_i]|` with `0.0005 = 1/2000`
and the loop breaks only when additionally `i < max_refinement - 1`;
otherwise `range_step /= 10` and the range is recentered (boundary-aware; in
Python `thresholds[max_i - 1]` at `max_i = 0` wraps to `thresholds[-1]`,
which can only be reached in the first branch when the list is a singleton,
where natural subtraction gives the same element).  After the loop,
`np.percentile(peaks, 100*best_threshold)` raises unless the returned best
fraction lies in [0, 1] — the final guard.  The second component of the
result counts the executed passes. -/

def arangeQ (start stop step : ℚ) : List ℚ :=
  (List.range (⌈(stop - start) / step⌉).toNat).map (fun (i : ℕ) => start + (i : ℚ) * step)

structure HsOracle where
  rate : ℚ → ℚ
  corr : ℚ → ℚ

structure HsState where
  rangeMin : ℚ
  rangeMax : ℚ
  rangeStep : ℚ
  best : ℚ

inductive PassOutcome where
  | err : PassOutcome
  | brk : ℚ → PassOutcome
  | next : HsState → PassOutcome

def scanCorrelations (o : HsOracle) : List ℚ → Option (List ℚ)
  | [] => some []
  | t :: ts =>
    if t < 0 ∨ 1 < t then none
    else if o.rate t < 2 then some []
    else match scanCorrelations o ts with
      | none => none
      | some cs => some (o.corr t :: cs)

def argmaxIdx : List ℚ → Option ℕ
  | [] => none
  | c :: cs =>
    match argmaxIdx cs with
    | none => some 0
    | some j => if cs.getD j 0 > c then some (j + 1) else some 0

def hsPass (o : HsOracle) (i maxRef : ℕ) (st : HsState) : PassOutcome :=
  let thresholds := arangeQ st.rangeMin st.rangeMax st.rangeStep
  match scanCorrelations o thresholds with
  | none => .err
  | some correlations =>
    match argmaxIdx correlations with
    | none => .err
    | some maxI =>
      let tBest := thresholds.getD maxI 0
      if |st.best - tBest| < 1 / 2000 ∧ i < maxRef - 1 then .brk tBest
      else
        let stepNew := st.rangeStep / 10
        if maxI = thresholds.length - 1 then
          .next ⟨thresholds.getD (maxI - 1) 0, tBest + 5 * stepNew, stepNew, tBest⟩
        else if maxI = 0 then
          .next ⟨tBest - 9 * stepNew, thresholds.getD (maxI + 1) 0, stepNew, tBest⟩
        else
          .next ⟨thresholds.getD (maxI - 1) 0, thresholds.getD (maxI + 1) 0, stepNew, tBest⟩

def hsIter (o : HsOracle) (maxRef : ℕ) : ℕ → HsState → Option ℚ × ℕ
  | 0, st => (some st.best, 0)
  | r + 1, st =>
    match hsPass o (maxRef - (r + 1)) maxRef st with
    | .err => (none, 1)
    | .brk b => (some b, 1)
    | .next st2 =>
      let res := hsIter o maxRef r st2
      (res.1, res.2 + 1)

def automatic_hs_threshold (o : HsOracle) (rangeMin rangeMax rangeStep : ℚ)
    (maxRef : ℕ) : Option ℚ × ℕ :=
  let res := hsIter o maxRef maxRef ⟨rangeMin, rangeMax, rangeStep, -1⟩
  match res.1 with
  | none => (none, res.2)
  | some b => if 0 ≤ b ∧ b ≤ 1 then (some b, res.2) else (none, res.2)

/-- Observer: the successor state of a pass, when the pass neither broke
early via the minimal-change test nor raised. -/
def nextStateOf : PassOutcome → Option HsState
  | .next st => some st
  | _ => none

/-- A concrete oracle used by the C7 witness: constant exceedance rate of 5
per year, correlation equal to the threshold. -/
def hsOracleEx : HsOracle := ⟨fun _ => 5, fun t => t⟩

end MhkitExtreme

namespace MhkitExtreme

/-! ## Theorems for claim C10 -/

/-- C10: for every callable `ppf`, positive `return_year` and positive
`short_term_period_hr`, `return_year_value` returns exactly `ppf(1 - p)` with
`p = 1 / (return_year * 365.25 * 24 / short_term_period_hr)`; equivalently
`ppf (1 - hr/(8766*ry))`; in particular `return_year=100`,
`short_term_period_hr=1` give `p = 1/(100*365.25*24) = 1/876600`. -/
theorem C10_return_year_value (ppf : ℚ → ℚ) (ry hr : ℚ)
    (hry : 0 < ry) (hhr : 0 < hr) :
    return_year_value ppf ry hr = ppf (1 - 1 / (ry * (1461 / 4) * 24 / hr)) ∧
    return_year_value ppf ry hr = ppf (1 - hr / (8766 * ry)) ∧
    return_year_value ppf 100 1 = ppf (1 - 1 / 876600) := by
  refine ⟨rfl, ?_, ?_⟩
  · unfold return_year_value
    have h : 1 / (ry * (1461 / 4) * 24 / hr) = hr / (8766 * ry) := by
      rw [one_div_div]; ring
    rw [h]
  · unfold return_year_value
    norm_num

/-- Witness for C10 at `ppf = id`, `return_year = 100`,
`short_term_period_hr = 1`. -/
theorem C10_return_year_value_witness :
    (0 : ℚ) < 100 ∧ (0 : ℚ) < 1 ∧
    return_year_value id 100 1 = id (1 - 1 / (100 * (1461 / 4) * 24 / 1)) := by
  exact ⟨by norm_num, by norm_num, (C10_return_year_value id 100 1 (by norm_num) (by norm_num)).1⟩

/-! ## Theorems for claim C5 -/

/-- C5 counterexample: for a single-peak sample the claim predicts that the
1st smallest peak (1-indexed rank 1) receives probability `1/(1+1) = 1/2`,
but the loop `F[i] = i/(npeaks+1.0)` for `i in range(npeaks)` assigns it
`0/(1+1) = 0`. -/
theorem C5_empirical_cdf_counterexample :
    wtfEmpiricalCdf [(3 : ℚ)] = [0] ∧ ((0 : ℚ) ≠ 1 / (1 + 1)) := by
  constructor
  · norm_num [wtfEmpiricalCdf, List.range_succ]
  · norm_num

/-- C5 amended: the i-th smallest peak counted 0-indexed from the smallest
receives empirical probability `i/(n+1)` (so the 1-indexed rank-i peak
receives `(i-1)/(n+1)`, and the smallest peak receives 0); the probability
list is aligned index-by-index with the sorted sample. -/
theorem C5_empirical_cdf_amended (x : List ℚ) (i : ℕ) (h : i < x.length) :
    (wtfEmpiricalCdf x).getD i 0 = (i : ℚ) / ((x.length : ℚ) + 1) ∧
    (wtfSortedPeaks x).length = (wtfEmpiricalCdf x).length := by
  constructor
  · unfold wtfEmpiricalCdf
    rw [List.getD_eq_getElem?_getD, List.getElem?_map, List.getElem?_range h]
    rfl
  · unfold wtfSortedPeaks wtfEmpiricalCdf
    rw [List.length_map, List.length_range, List.length_insertionSort]

/-- Witness for C5 amended at `x = [7, 5]`, `i = 1`. -/
theorem C5_empirical_cdf_amended_witness :
    1 < ([(7 : ℚ), 5]).length ∧
    (wtfEmpiricalCdf [(7 : ℚ), 5]).getD 1 0 = (1 : ℚ) / (2 + 1) := by
  exact ⟨by decide, by
    have h := (C5_empirical_cdf_amended [(7 : ℚ), 5] 1 (by decide)).1
    simpa using h⟩

/-! ## Theorems for claim C8 -/

/-- C8 counterexample: on the unrecognized method name `"not_a_method"` the
function prints the message and then raises `UnboundLocalError` (the local
`ste` is unassigned on that path); it does not return `None`. -/
theorem C8_unknown_method_counterexample :
    short_term_extreme "not_a_method"
      = (["Passed `method` not found."], .exn "UnboundLocalError") ∧
    short_term_extreme "not_a_method"
      ≠ (["Passed `method` not found."], .ret none) := by
  constructor
  · rfl
  · intro h
    exact PyOutcome.noConfusion (congrArg Prod.snd h)

/-- C8 amended: for every method string that is not one of the five
recognized names, `short_term_extreme` prints "Passed `method` not found."
and then raises `UnboundLocalError` at `return ste`; it neither returns
`None` nor returns normally. -/
theorem C8_unknown_method_amended (method : String)
    (h1 : method ∉ peaksMethodKeys) (h2 : method ∉ blockMaximaMethodKeys) :
    short_term_extreme method
      = (["Passed `method` not found."], .exn "UnboundLocalError") := by
  unfold short_term_extreme
  rw [if_neg h1, if_neg h2]

/-- Witness for C8 amended at the unrecognized name `"not_a_method"`. -/
theorem C8_unknown_method_amended_witness :
    "not_a_method" ∉ peaksMethodKeys ∧ "not_a_method" ∉ blockMaximaMethodKeys ∧
    short_term_extreme "not_a_method"
      = (["Passed `method` not found."], .exn "UnboundLocalError") := by
  exact ⟨by decide, by decide,
    C8_unknown_method_amended "not_a_method" (by decide) (by decide)⟩

/-! ## Theorems for claim C2 -/

/-- C2 counterexample: take the peaks-over-threshold distribution built from
the sample `[1, 2, 3]` with threshold `2` (any fitted GPD; the constant-zero
fit is used).  Its CDF at `x = 0` is NaN (`none`), while the `ste_peaks`
distribution with `n_peaks = 1` has CDF `0` there — so for `n_peaks = 1` the
short-term extreme CDF does not equal the parent peaks CDF pointwise at
every x. -/
theorem C2_ste_peaks_counterexample :
    steCdf (peaks_distribution_peaks_over_threshold (fun _ _ => 0) [1, 2, 3] (some 2) 0) 1 0 = 0 ∧
    peaks_distribution_peaks_over_threshold (fun _ _ => 0) [1, 2, 3] (some 2) 0 0 = none ∧
    some (steCdf (peaks_distribution_peaks_over_threshold (fun _ _ => 0) [1, 2, 3] (some 2) 0) 1 0)
      ≠ peaks_distribution_peaks_over_threshold (fun _ _ => 0) [1, 2, 3] (some 2) 0 0 := by
  have h2 : peaks_distribution_peaks_over_threshold (fun _ _ => 0) [1, 2, 3] (some 2) 0 0 = none := by
    norm_num [peaks_distribution_peaks_over_threshold, potPeaksCdf]
  have h1 : steCdf (peaks_distribution_peaks_over_threshold (fun _ _ => 0) [1, 2, 3] (some 2) 0) 1 0 = 0 := by
    simp [steCdf, steCdfVec, h2]
  refine ⟨h1, h2, ?_⟩
  rw [h1, h2]
  simp

/-- C2 amended: the distribution returned by `ste_peaks(D, n_peaks)` has
CDF(x) = c(x)^n_peaks where c(x) is D.cdf(x) with NaN replaced by 0; for
`n_peaks = 1` the short-term extreme CDF equals the parent peaks CDF at
every x where the parent CDF is not NaN, and equals 0 where the parent CDF
is NaN. -/
theorem C2_ste_peaks_amended (parentCdf : ℚ → Option ℚ) (n : ℕ) (x : ℚ) :
    steCdf parentCdf n x = ((parentCdf x).getD 0) ^ n ∧
    (∀ v : ℚ, parentCdf x = some v → steCdf parentCdf 1 x = v) ∧
    (parentCdf x = none → steCdf parentCdf 1 x = 0) := by
  refine ⟨rfl, ?_, ?_⟩
  · intro v hv
    show ((parentCdf x).getD 0) ^ 1 = v
    rw [hv, pow_one]
    rfl
  · intro hv
    show ((parentCdf x).getD 0) ^ 1 = 0
    rw [hv, pow_one]
    rfl

/-- Witness for C2 amended at a parent CDF with a NaN point and a non-NaN
point. -/
theorem C2_ste_peaks_amended_witness :
    (fun y : ℚ => if y < 0 then (none : Option ℚ) else some y) 5 = some 5 ∧
    steCdf (fun y : ℚ => if y < 0 then (none : Option ℚ) else some y) 1 5 = 5 ∧
    (fun y : ℚ => if y < 0 then (none : Option ℚ) else some y) (-1) = none ∧
    steCdf (fun y : ℚ => if y < 0 then (none : Option ℚ) else some y) 1 (-1) = 0 := by
  refine ⟨by decide, ?_, by decide, ?_⟩
  · exact (C2_ste_peaks_amended (fun y : ℚ => if y < 0 then (none : Option ℚ) else some y) 1 5).2.1
      5 (by decide)
  · exact (C2_ste_peaks_amended (fun y : ℚ => if y < 0 then (none : Option ℚ) else some y) 1 (-1)).2.2
      (by decide)

/-! ## Theorems for claim C4 -/

/-- The `_cdf` accumulation loop `f += w_i * ste_i.cdf(x)` equals the sum of
the per-seastate terms. -/
lemma foldl_add_mul (x : ℚ) (l : List (ℚ × (ℚ → ℚ))) (a : ℚ) :
    l.foldl (fun f p => f + p.1 * p.2 x) a = a + (l.map (fun p => p.1 * p.2 x)).sum := by
  induction l generalizing a with
  | nil => simp
  | cons h t ih => simp only [List.foldl_cons, List.map_cons, List.sum_cons, ih]; ring

lemma sum_map_mul_const (c : ℚ) (l : List ℚ) :
    (l.map (fun w => c * w)).sum = c * l.sum := by
  induction l with
  | nil => simp
  | cons a t ih => simp only [List.map_cons, List.sum_cons, ih]; ring

/-- C4: the long-term distribution has CDF(x) = Σ (w_i/Σw)·ste_i.cdf(x);
multiplying all weights by a common positive factor leaves the CDF
unchanged; a single-element list with weight [1] reproduces that input
distribution's CDF exactly. -/
theorem C4_full_seastate_long_term_extreme (stes : List (ℚ → ℚ)) (weights : List ℚ) (x : ℚ)
    (hlen : stes.length = weights.length) (hpos : ∀ w ∈ weights, 0 < w) :
    longTermCdf stes weights x
      = ((weights.zip stes).map (fun p => p.1 / weights.sum * p.2 x)).sum ∧
    (∀ c : ℚ, 0 < c →
      longTermCdf stes (weights.map (fun w => c * w)) x = longTermCdf stes weights x) ∧
    (∀ f : ℚ → ℚ, longTermCdf [f] [1] x = f x) := by
  refine ⟨?_, ?_, ?_⟩
  · simp only [longTermCdf]
    rw [List.zip_map_left, foldl_add_mul, zero_add, List.map_map]
    rfl
  · intro c hc
    simp only [longTermCdf]
    rw [sum_map_mul_const, List.map_map]
    have hmap : ((fun w => w / (c * weights.sum)) ∘ fun w => c * w)
        = fun w => w / weights.sum := by
      funext w
      simp only [Function.comp]
      exact mul_div_mul_left w weights.sum (ne_of_gt hc)
    rw [hmap]
  · intro f
    simp only [longTermCdf]
    norm_num

/-- Witness for C4 at two sea states with weights [1, 2], scaling factor 2,
and the singleton case. -/
theorem C4_full_seastate_long_term_extreme_witness :
    ([fun _ : ℚ => 0, fun _ : ℚ => 1] : List (ℚ → ℚ)).length = ([1, 2] : List ℚ).length ∧
    (∀ w ∈ ([1, 2] : List ℚ), 0 < w) ∧
    longTermCdf [fun _ : ℚ => 0, fun _ : ℚ => 1] (([1, 2] : List ℚ).map (fun w => 2 * w)) 0
      = longTermCdf [fun _ : ℚ => 0, fun _ : ℚ => 1] [1, 2] 0 ∧
    longTermCdf [fun _ : ℚ => 37] [1] 0 = 37 := by
  refine ⟨by decide, by decide, ?_, ?_⟩
  · exact (C4_full_seastate_long_term_extreme [fun _ : ℚ => 0, fun _ : ℚ => 1] [1, 2] 0
      (by decide) (by decide)).2.1 2 (by decide)
  · exact (C4_full_seastate_long_term_extreme [fun _ : ℚ => 0, fun _ : ℚ => 1] [1, 2] 0
      (by decide) (by decide)).2.2 (fun _ : ℚ => 37)

/-! ## Theorems for claim C1 -/

/-- C1, evaluated at the failing input: two candidate storm peaks at indices
0 and 1 (within one decorrelation window of 2), raw values 10 and 7,
threshold_unit 5.  The second peak's exceedance 7 - 5 = 2 does NOT exceed the
last kept exceedance 10 - 5 = 5, so per the claim the larger first peak must
survive; but the code's `elif peaks[idx] > independent_storm_peaks[-1]`
compares the raw value 7 against the stored exceedance 5 and therefore
replaces the larger storm with the smaller one: the kept exceedance list is
[2], the exceedance of the smaller peak. -/
theorem C1_merge_replaces_larger_with_smaller :
    independentStormPeaks [10, 7] 5 2 [0, 1] = [7 - 5] ∧
    ¬ ((7 : ℚ) - 5 > 10 - 5) ∧
    independentStormPeaks [10, 7] 5 2 [0, 1] ≠ [10 - 5] := by
  have heval : independentStormPeaks [10, 7] 5 2 [0, 1] = [7 - 5] := by
    norm_num [independentStormPeaks, mergeStormPeaks, List.getLast?_singleton,
      List.getD_cons_succ, List.getD_cons_zero]
  refine ⟨heval, by norm_num, ?_⟩
  rw [heval]
  norm_num

/-! ## Theorems for claim C3 -/

/-- The population standard deviation of the sample [0, 4] is 2. -/
lemma varPop_zero_four : (2 : ℚ) ^ 2 = varPop [0, 4] := by
  norm_num [varPop, mean]

/-- C3: the distribution built by `peaks_distribution_peaks_over_threshold`
with threshold u has CDF equal to NaN strictly below u and equal to
`1 - (n_exceed/n_total)*(1 - GPD.cdf(y - u))` at or above u, where the GPD is
the abstract maximum-likelihood fit (location fixed at 0) applied to the
exceedances x_i - u over x_i > u (the fitted sample is a permutation of that
exceedance list), n_exceed is the number of strict exceedances of the
original sample and n_total = len(x); with no threshold given, the code uses
mean(x) + 1.4*s where s = np.std(x) is the nonnegative square root of the
population variance. -/
theorem C3_peaks_distribution_peaks_over_threshold
    (fitGPD : List ℚ → ℚ → ℚ) (x : List ℚ) (u s y : ℚ) :
    (y < u → peaks_distribution_peaks_over_threshold fitGPD x (some u) s y = none) ∧
    (u ≤ y → peaks_distribution_peaks_over_threshold fitGPD x (some u) s y
      = some (1 - (((x.filter (fun v => decide (u < v))).length : ℚ) / (x.length : ℚ))
          * (1 - fitGPD (potExceedances x u) (y - u)))) ∧
    (potExceedances x u).Perm ((x.filter (fun v => decide (u < v))).map (fun v => v - u)) ∧
    (0 ≤ s → s ^ 2 = varPop x →
      peaks_distribution_peaks_over_threshold fitGPD x none s
        = peaks_distribution_peaks_over_threshold fitGPD x (some (mean x + 7 / 5 * s)) s) := by
  have hperm : (wtfSortedPeaks x).Perm x := List.perm_insertionSort _ x
  have hfil : ((wtfSortedPeaks x).filter (fun v => decide (u < v))).Perm
      (x.filter (fun v => decide (u < v))) := hperm.filter _
  refine ⟨?_, ?_, ?_, ?_⟩
  · intro h
    simp only [peaks_distribution_peaks_over_threshold, potPeaksCdf]
    rw [if_pos h]
  · intro h
    simp only [peaks_distribution_peaks_over_threshold, potPeaksCdf, potExceedances]
    rw [if_neg (not_lt.mpr h), List.length_map, hfil.length_eq, hperm.length_eq]
  · exact (hfil.map _)
  · intro _ _
    rfl

/-- Witness for C3 at `x = [0, 4]`, explicit threshold 1, `s = 2`
(the population standard deviation of `[0, 4]`), evaluation points 0 and 1. -/
theorem C3_peaks_distribution_peaks_over_threshold_witness :
    ((0 : ℚ) < 1) ∧
    peaks_distribution_peaks_over_threshold (fun _ _ => 0) [0, 4] (some 1) 2 0 = none ∧
    ((1 : ℚ) ≤ 1) ∧
    peaks_distribution_peaks_over_threshold (fun _ _ => 0) [0, 4] (some 1) 2 1
      = some (1 - (((([(0 : ℚ), 4]).filter (fun v => decide ((1 : ℚ) < v))).length : ℚ)
            / ((([(0 : ℚ), 4]).length : ℚ)))
          * (1 - (fun (_ : List ℚ) (_ : ℚ) => (0 : ℚ)) (potExceedances [0, 4] 1) (1 - 1))) ∧
    ((0 : ℚ) ≤ 2) ∧ ((2 : ℚ) ^ 2 = varPop [0, 4]) ∧
    peaks_distribution_peaks_over_threshold (fun _ _ => 0) [0, 4] none 2
      = peaks_distribution_peaks_over_threshold (fun _ _ => 0) [0, 4]
          (some (mean [0, 4] + 7 / 5 * 2)) 2 := by
  refine ⟨by decide, ?_, by decide, ?_, by decide, varPop_zero_four, ?_⟩
  · exact (C3_peaks_distribution_peaks_over_threshold (fun _ _ => 0) [0, 4] 1 2 0).1 (by decide)
  · exact (C3_peaks_distribution_peaks_over_threshold (fun _ _ => 0) [0, 4] 1 2 1).2.1 (by decide)
  · exact (C3_peaks_distribution_peaks_over_threshold (fun _ _ => 0) [0, 4] 1 2 0).2.2.2
      (by decide) varPop_zero_four

/-! ## Theorems for claim C9 -/

lemma foldl_max_mem (a : ℚ) (l : List ℚ) : l.foldl max a = a ∨ l.foldl max a ∈ l := by
  induction l generalizing a with
  | nil => left; rfl
  | cons b t ih =>
    simp only [List.foldl_cons]
    rcases ih (max a b) with h | h
    · rcases max_choice a b with hm | hm
      · left; rw [h, hm]
      · right; rw [h, hm]; exact List.mem_cons_self b t
    · right; exact List.mem_cons_of_mem b h

lemma le_foldl_max (a : ℚ) (l : List ℚ) : a ≤ l.foldl max a := by
  induction l generalizing a with
  | nil => exact le_refl a
  | cons b t ih => exact le_trans (le_max_left a b) (ih (max a b))

lemma foldl_max_le_all (a : ℚ) (l : List ℚ) : ∀ v ∈ l, v ≤ l.foldl max a := by
  induction l generalizing a with
  | nil => intro v hv; exact absurd hv (List.not_mem_nil v)
  | cons b t ih =>
    intro v hv
    rcases List.mem_cons.mp hv with h | h
    · subst h
      exact le_trans (le_max_right a v) (le_foldl_max (max a v) t)
    · exact ih (max a b) v h

/-- Applied to a nonempty block, np.max returns its maximum: a member that
bounds every member. -/
lemma npMax_spec (l : List ℚ) (hl : l ≠ []) :
    ∃ m, npMax l = some m ∧ m ∈ l ∧ ∀ v ∈ l, v ≤ m := by
  match l with
  | [] => exact absurd rfl hl
  | a :: t =>
    refine ⟨t.foldl max a, rfl, ?_, ?_⟩
    · rcases foldl_max_mem a t with h | h
      · rw [h]; exact List.mem_cons_self a t
      · exact List.mem_cons_of_mem a h
    · intro v hv
      rcases List.mem_cons.mp hv with h | h
      · subst h; exact le_foldl_max v t
      · exact foldl_max_le_all a t v h

/-- The block-collection loop succeeds on nonempty blocks and fills entry i
with the maximum of block i. -/
lemma collectBlocks_spec (txs : List (ℚ × ℚ)) (tst : ℚ) (n : ℕ)
    (h : ∀ i, i < n → blockOf txs tst i ≠ []) :
    ∃ bm, collectBlocks txs tst n = some bm ∧ bm.length = n ∧
      ∀ i, i < n → bm.getD i 0 ∈ blockOf txs tst i ∧
        ∀ v ∈ blockOf txs tst i, v ≤ bm.getD i 0 := by
  induction n with
  | zero => exact ⟨[], rfl, rfl, fun i hi => absurd hi (Nat.not_lt_zero i)⟩
  | succ n ih =>
    obtain ⟨bm, hcb, hbl, hprop⟩ := ih (fun i hi => h i (Nat.lt_succ_of_lt hi))
    obtain ⟨m, hm, hmem, hle⟩ := npMax_spec _ (h n (Nat.lt_succ_self n))
    refine ⟨bm ++ [m], ?_, ?_, ?_⟩
    · simp only [collectBlocks, hcb, hm]
    · simp [hbl]
    · intro i hi
      rcases Nat.lt_succ_iff_lt_or_eq.mp hi with hlt | heq
      · have hg : (bm ++ [m]).getD i 0 = bm.getD i 0 := by
          rw [List.getD_eq_getElem?_getD, List.getD_eq_getElem?_getD,
            List.getElem?_append, if_pos (show i < bm.length from hbl ▸ hlt)]
        rw [hg]; exact hprop i hlt
      · subst heq
        have hnlt : ¬ (i < bm.length) := by rw [hbl]; exact lt_irrefl i
        have hg : (bm ++ [m]).getD i 0 = m := by
          rw [List.getD_eq_getElem?_getD, List.getElem?_append, if_neg hnlt, hbl]
          simp
        rw [hg]; exact ⟨hmem, hle⟩

/-- C9: under the claim's preconditions (nonempty time array of the same
length as the data, positive block length, nonnegative final time, every
block containing a sample so that `np.max` does not raise), `block_maxima`
returns exactly `⌊t[-1]/t_st⌋` block maxima; entry i is the maximum of the
samples with `i*t_st ≤ t < (i+1)*t_st` — blocks anchored at absolute time 0,
not at t[0] — and every sample with `t ≥ nblock*t_st` (the partial trailing
block) belongs to no block and is dropped. -/
theorem C9_block_maxima (t x : List ℚ) (tst : ℚ)
    (hne : t ≠ []) (hlen : t.length = x.length) (htst : 0 < tst)
    (hlast : 0 ≤ t.getLastD 0)
    (hblocks : ∀ i, i < (⌊t.getLastD 0 / tst⌋).toNat → blockOf (t.zip x) tst i ≠ []) :
    ∃ bm, block_maxima t x tst = some bm ∧
      bm.length = (⌊t.getLastD 0 / tst⌋).toNat ∧
      (∀ i, i < bm.length →
        bm.getD i 0 ∈ blockOf (t.zip x) tst i ∧
        ∀ v ∈ blockOf (t.zip x) tst i, v ≤ bm.getD i 0) ∧
      (∀ i, i < bm.length → ∀ p ∈ t.zip x,
        ((⌊t.getLastD 0 / tst⌋).toNat : ℚ) * tst ≤ p.1 →
          p ∉ blockPairs (t.zip x) tst i) := by
  obtain ⟨bm, hcb, hbl, hprop⟩ := collectBlocks_spec (t.zip x) tst _ hblocks
  have hgl : t.getLast? = some (t.getLastD 0) := by
    obtain ⟨a, ha⟩ := Option.isSome_iff_exists.mp (List.getLast?_isSome.mpr hne)
    rw [ha, List.getLastD_eq_getLast?, ha]
    rfl
  have hq : ¬ (t.getLastD 0 / tst ≤ -1) := by
    have hnn : 0 ≤ t.getLastD 0 / tst := div_nonneg hlast htst.le
    intro hcon
    linarith
  refine ⟨bm, ?_, hbl, ?_, ?_⟩
  · simp only [block_maxima, if_pos hlen, hgl, if_neg hq]
    exact hcb
  · intro i hi
    exact hprop i (hbl ▸ hi)
  · intro i hi p _ hge hmem
    have hfil := List.mem_filter.mp hmem
    have hcond := hfil.2
    rw [Bool.and_eq_true, decide_eq_true_eq, decide_eq_true_eq] at hcond
    have hup : p.1 < ((i : ℚ) + 1) * tst := hcond.2
    have hi' : i < (⌊t.getLastD 0 / tst⌋).toNat := hbl ▸ hi
    have hcast : ((i : ℚ) + 1) ≤ (((⌊t.getLastD 0 / tst⌋).toNat : ℕ) : ℚ) := by
      have hn : (i + 1 : ℕ) ≤ (⌊t.getLastD 0 / tst⌋).toNat := hi'
      exact_mod_cast hn
    have hmul : ((i : ℚ) + 1) * tst ≤ (((⌊t.getLastD 0 / tst⌋).toNat : ℕ) : ℚ) * tst :=
      mul_le_mul_of_nonneg_right hcast htst.le
    linarith

/-- The blocks of the witness sample for C9 are nonempty. -/
lemma c9_witness_blocks :
    ∀ i, i < (⌊([(0 : ℚ), 1]).getLastD 0 / 1⌋).toNat →
      blockOf (([(0 : ℚ), 1]).zip [(5 : ℚ), 7]) 1 i ≠ [] := by
  intro i hi
  have hb : (⌊([(0 : ℚ), 1]).getLastD 0 / 1⌋).toNat = 1 := by
    norm_num [List.getLastD]
  rw [hb] at hi
  have h0 : i = 0 := by omega
  subst h0
  simp [blockOf, blockPairs, List.filter]

/-- Witness for C9 at `t = [0, 1]`, `x = [5, 7]`, `t_st = 1`: one full block
`[0, 1)` containing the sample 5, the sample at `t = 1` dropped. -/
theorem C9_block_maxima_witness :
    ([(0 : ℚ), 1] ≠ []) ∧ (([(0 : ℚ), 1]).length = ([(5 : ℚ), 7]).length) ∧
    ((0 : ℚ) < 1) ∧ (0 ≤ ([(0 : ℚ), 1]).getLastD 0) ∧
    (∃ bm, block_maxima [0, 1] [5, 7] 1 = some bm ∧
      bm.length = (⌊([(0 : ℚ), 1]).getLastD 0 / 1⌋).toNat ∧
      (∀ i, i < bm.length →
        bm.getD i 0 ∈ blockOf (([(0 : ℚ), 1]).zip [(5 : ℚ), 7]) 1 i ∧
        ∀ v ∈ blockOf (([(0 : ℚ), 1]).zip [(5 : ℚ), 7]) 1 i, v ≤ bm.getD i 0) ∧
      (∀ i, i < bm.length → ∀ p ∈ ([(0 : ℚ), 1]).zip [(5 : ℚ), 7],
        (((⌊([(0 : ℚ), 1]).getLastD 0 / 1⌋).toNat : ℚ)) * 1 ≤ p.1 →
          p ∉ blockPairs (([(0 : ℚ), 1]).zip [(5 : ℚ), 7]) 1 i)) :=
  ⟨by decide, by decide, by decide, by decide,
    C9_block_maxima [0, 1] [5, 7] 1 (by decide) (by decide) (by decide) (by decide)
      c9_witness_blocks⟩

/-! ## Theorems for claim C7 -/

/-- The iteration executes at most as many passes as it has fuel. -/
lemma hsIter_count_le (o : HsOracle) (maxRef : ℕ) :
    ∀ r st, (hsIter o maxRef r st).2 ≤ r := by
  intro r
  induction r with
  | zero => intro st; exact le_refl 0
  | succ r ih =>
    intro st
    cases h : hsPass o (maxRef - (r + 1)) maxRef st with
    | err => simp only [hsIter, h]; omega
    | brk b => simp only [hsIter, h]; omega
    | next st2 =>
      simp only [hsIter, h]
      exact Nat.succ_le_succ (ih st2)

/-- C7: `automatic_hs_threshold` performs at most `max_refinement` passes;
every pass that completes without exiting early via the minimal-change test
(and without raising) divides `range_step` by exactly 10; and a returned best
threshold fraction lies within [0, 1]. -/
theorem C7_automatic_hs_threshold (o : HsOracle) (rangeMin rangeMax rangeStep : ℚ)
    (maxRef : ℕ) (i : ℕ) (st : HsState) :
    (automatic_hs_threshold o rangeMin rangeMax rangeStep maxRef).2 ≤ maxRef ∧
    (∀ st2, nextStateOf (hsPass o i maxRef st) = some st2 →
      st2.rangeStep = st.rangeStep / 10) ∧
    (∀ b, (automatic_hs_threshold o rangeMin rangeMax rangeStep maxRef).1 = some b →
      0 ≤ b ∧ b ≤ 1) := by
  refine ⟨?_, ?_, ?_⟩
  · simp only [automatic_hs_threshold]
    cases h : (hsIter o maxRef maxRef ⟨rangeMin, rangeMax, rangeStep, -1⟩).1 with
    | none =>
      simpa [h] using hsIter_count_le o maxRef maxRef ⟨rangeMin, rangeMax, rangeStep, -1⟩
    | some b =>
      by_cases hb : 0 ≤ b ∧ b ≤ 1 <;>
        simpa [h, hb] using hsIter_count_le o maxRef maxRef ⟨rangeMin, rangeMax, rangeStep, -1⟩
  · intro st2 h
    simp only [hsPass] at h
    split at h
    · exact Option.noConfusion h
    · split at h
      · exact Option.noConfusion h
      · split at h
        · exact Option.noConfusion h
        · split at h
          · simp only [nextStateOf] at h
            rw [← Option.some.inj h]
          · split at h
            · simp only [nextStateOf] at h
              rw [← Option.some.inj h]
            · simp only [nextStateOf] at h
              rw [← Option.some.inj h]
  · intro b h
    simp only [automatic_hs_threshold] at h
    split at h
    · exact Option.noConfusion h
    · rename_i b0 hb0
      split at h
      · rename_i hcond
        have hb : b0 = b := Option.some.inj h
        exact hb ▸ hcond
      · exact Option.noConfusion h

/-- Evaluation of one pass of the witness run: singleton threshold list [0],
no minimal-change break on the first pass, step divided by 10. -/
lemma hs_ex_pass :
    nextStateOf (hsPass hsOracleEx 0 1 ⟨0, 1, 1, -1⟩) = some ⟨0, 1 / 2, 1 / 10, 0⟩ := by
  have harange : arangeQ 0 1 1 = [0] := by
    norm_num [arangeQ, List.range_succ]
  have hscan : scanCorrelations hsOracleEx [0] = some [0] := by
    norm_num [scanCorrelations, hsOracleEx]
  have hmax : argmaxIdx [(0 : ℚ)] = some 0 := by
    norm_num [argmaxIdx]
  simp only [hsPass, harange, hscan, hmax]
  norm_num [nextStateOf]

/-- Evaluation of the full witness run: it returns best fraction 0 after one
pass. -/
lemma hs_ex_run_fst :
    (automatic_hs_threshold hsOracleEx 0 1 1 1).1 = some 0 := by
  have hpass : hsPass hsOracleEx (1 - 1) 1 ⟨0, 1, 1, -1⟩ = .next ⟨0, 1 / 2, 1 / 10, 0⟩ := by
    have harange : arangeQ 0 1 1 = [0] := by
      norm_num [arangeQ, List.range_succ]
    have hscan : scanCorrelations hsOracleEx [0] = some [0] := by
      norm_num [scanCorrelations, hsOracleEx]
    have hmax : argmaxIdx [(0 : ℚ)] = some 0 := by
      norm_num [argmaxIdx]
    simp only [hsPass, harange, hscan, hmax]
    norm_num
  simp only [automatic_hs_threshold, hsIter, hpass]
  norm_num

/-- Witness for C7 on the concrete oracle run with initial range (0, 1, 1)
and `max_refinement = 1`. -/
theorem C7_automatic_hs_threshold_witness :
    (automatic_hs_threshold hsOracleEx 0 1 1 1).2 ≤ 1 ∧
    (⟨0, 1 / 2, 1 / 10, 0⟩ : HsState).rangeStep = (⟨0, 1, 1, -1⟩ : HsState).rangeStep / 10 ∧
    ((0 : ℚ) ≤ 0 ∧ (0 : ℚ) ≤ 1) :=
  ⟨(C7_automatic_hs_threshold hsOracleEx 0 1 1 1 0 ⟨0, 1, 1, -1⟩).1,
   (C7_automatic_hs_threshold hsOracleEx 0 1 1 1 0 ⟨0, 1, 1, -1⟩).2.1
     ⟨0, 1 / 2, 1 / 10, 0⟩ hs_ex_pass,
   (C7_automatic_hs_threshold hsOracleEx 0 1 1 1 0 ⟨0, 1, 1, -1⟩).2.2 0 hs_ex_run_fst⟩

end MhkitExtreme
